import Mathlib

/-!
Shallow embedding of the `tiadrop/chrono` TypeScript library (src/index.ts,
current revision: the one defining `compare`, `abs`, `wait` and `atTime`,
whose `breakdown` sorts its unit list and whose day validation uses the host
`Date`).  JavaScript numbers are modelled as exact rationals (`ℚ`); every
numeric literal of the source is exactly representable for the operations
the claims exercise.  A separate small model (`JSNum`) with `NaN` and the
infinities is used for the IEEE-754 `==` semantics of `TimePeriod.equals`
and `TimePeriod.divide`.
-/

namespace Chrono

/-- The `TimeUnit` string union of src/index.ts. -/
inductive TimeUnit where
  | milliseconds
  | seconds
  | minutes
  | hours
  | days
  | weeks
  | microfortnights
deriving DecidableEq, Repr, Fintype

open TimeUnit

/-- The `divisors` table of src/index.ts: milliseconds per unit
(`microfortnights: 1209.6, weeks: 3600000*24*7, days: 3600000*24,
hours: 3600000, minutes: 60000, seconds: 1000, milliseconds: 1`). -/
def divisors : TimeUnit → ℚ
  | microfortnights => 1209.6
  | weeks => 3600000 * 24 * 7
  | days => 3600000 * 24
  | hours => 3600000
  | minutes => 60000
  | seconds => 1000
  | milliseconds => 1

/-- Ordering used by `breakdown`'s `sort((a, b) => divisors[b] - divisors[a])`:
`a` may come before `b` when `divisors[b] <= divisors[a]` (descending divisor
magnitude).  The comparator returns 0 only for identical units, since all
seven divisors are distinct, so any correct sort is the unique sorted list. -/
def unitLE (a b : TimeUnit) : Prop := divisors b ≤ divisors a

instance : DecidableRel unitLE := fun a b =>
  inferInstanceAs (Decidable (divisors b ≤ divisors a))

instance : IsTotal TimeUnit unitLE := ⟨fun a b => (le_total (divisors a) (divisors b)).symm⟩

instance : IsTrans TimeUnit unitLE := ⟨fun _ _ _ h h' => le_trans h' h⟩

instance : IsAntisymm TimeUnit unitLE :=
  ⟨fun a b h h' => by
    have hab : divisors a = divisors b := le_antisymm h' h
    cases a <;> cases b <;> first
      | rfl
      | exact absurd hab (by norm_num [divisors])⟩

/-- Models `[...units].sort((a, b) => divisors[b] - divisors[a])`
(src/index.ts, `breakdown`): the unit list sorted by descending divisor. -/
def sortUnits (units : List TimeUnit) : List TimeUnit :=
  List.insertionSort unitLE units

/-- Models `units.at(-1)`: the last element of the list, if any. -/
def lastElem? : List TimeUnit → Option TimeUnit
  | [] => none
  | [u] => some u
  | _ :: u :: t => lastElem? (u :: t)

/-- Models `result[unit] = amount` on a JavaScript object: if `unit` is
already a key its value is updated in place (key order keeps the original
insertion position), otherwise the pair is appended. -/
def insertEntry (acc : List (TimeUnit × ℚ)) (u : TimeUnit) (a : ℚ) : List (TimeUnit × ℚ) :=
  if acc.any (fun p => p.1 = u) then
    acc.map (fun p => if p.1 = u then (u, a) else p)
  else acc ++ [(u, a)]

/-- Models the `units.forEach(...)` loop of `breakdown` (src/index.ts):
`remaining` starts at `asMilliseconds`; a unit equal to `floatUnit` gets
`amount = remaining / div` and leaves `remaining` untouched; every other
unit gets `amount = Math.floor(remaining / div)` and
`remaining -= amount * div`; the entry is written only when
`includeZero || amount !== 0`. -/
def breakdownGo (floatUnit : Option TimeUnit) (includeZero : Bool) :
    List TimeUnit → ℚ → List (TimeUnit × ℚ) → List (TimeUnit × ℚ)
  | [], _, acc => acc
  | u :: rest, remaining, acc =>
    if some u = floatUnit then
      let amount := remaining / divisors u
      let acc' := if includeZero = true ∨ amount ≠ 0 then insertEntry acc u amount else acc
      breakdownGo floatUnit includeZero rest remaining acc'
    else
      let amount : ℚ := (⌊remaining / divisors u⌋ : ℤ)
      let acc' := if includeZero = true ∨ amount ≠ 0 then insertEntry acc u amount else acc
      breakdownGo floatUnit includeZero rest (remaining - amount * divisors u) acc'

/-- Body of `TimePeriod.breakdown` after option resolution (src/index.ts):
sort the units by descending divisor, fix `floatUnit = floatLast && units.at(-1)`,
then run the decomposition loop on an empty result object. -/
def breakdownList (ms : ℚ) (units : List TimeUnit) (floatLast includeZero : Bool) :
    List (TimeUnit × ℚ) :=
  let sorted := sortUnits units
  breakdownGo (if floatLast then lastElem? sorted else none) includeZero sorted ms []

/-- Models `Partial<BreakdownOptions<boolean>>`: each field may be absent. -/
structure BreakdownOptions where
  floatLast : Option Bool := none
  includeZero : Option Bool := none
deriving DecidableEq, Repr

/-- Unit list used when `breakdown` is called without one (src/index.ts):
`["days", "hours", "minutes", "seconds", "milliseconds"]`. -/
def defaultUnits : List TimeUnit := [days, hours, minutes, seconds, milliseconds]

/-- The `TimePeriod` class: its only state is the `asMilliseconds` scalar. -/
structure TimePeriod where
  asMilliseconds : ℚ
deriving DecidableEq, Repr

/-- Models the `TimePeriod.breakdown` dispatch (src/index.ts): when the first
argument is a unit list (`Array.isArray(units)`), defaults are
`floatLast: false, includeZero: true` overridden by the second argument;
otherwise the first argument is itself the option object, defaults are
`floatLast: true, includeZero: false`, the unit list is `defaultUnits`, and
the second argument is ignored. -/
def TimePeriod.breakdown (p : TimePeriod)
    (unitsOrOptions : List TimeUnit ⊕ BreakdownOptions)
    (options : BreakdownOptions) : List (TimeUnit × ℚ) :=
  match unitsOrOptions with
  | .inl units =>
      breakdownList p.asMilliseconds units
        (options.floatLast.getD false) (options.includeZero.getD true)
  | .inr opts =>
      breakdownList p.asMilliseconds defaultUnits
        (opts.floatLast.getD true) (opts.includeZero.getD false)

/-- Sum of `amount * divisors[unit]` over the entries of a breakdown result. -/
def entrySum (l : List (TimeUnit × ℚ)) : ℚ :=
  (l.map (fun p => p.2 * divisors p.1)).sum

/-- Stated from the claim's words (C3), for comparison with the embedded
`breakdownGo`: walking the units in significance order, every unit except
the last gets `amount = floor(remaining / divisor)` and
`remaining -= amount * divisor`; the last unit gets
`amount = remaining / divisor` when `floatLast` is true and the floor
otherwise; a unit's entry appears exactly when `includeZero` is true or its
amount is nonzero. -/
def breakdownSpecGo (floatLast includeZero : Bool) : ℚ → List TimeUnit → List (TimeUnit × ℚ)
  | _, [] => []
  | remaining, [u] =>
    let amount : ℚ :=
      if floatLast then remaining / divisors u else ((⌊remaining / divisors u⌋ : ℤ) : ℚ)
    if includeZero = true ∨ amount ≠ 0 then [(u, amount)] else []
  | remaining, u :: u' :: rest =>
    let amount : ℚ := (⌊remaining / divisors u⌋ : ℤ)
    (if includeZero = true ∨ amount ≠ 0 then [(u, amount)] else []) ++
      breakdownSpecGo floatLast includeZero (remaining - amount * divisors u) (u' :: rest)

/-- The value left in `remaining` after the floor-only decomposition loop of
`breakdown` has consumed the given units. -/
def finalRem : List TimeUnit → ℚ → ℚ
  | [], r => r
  | u :: t, r => finalRem t (r - ((⌊r / divisors u⌋ : ℤ) : ℚ) * divisors u)

/-- The divisors of the integral units as natural numbers
(`microfortnights`, whose divisor 1209.6 is not integral, is excluded by
every use and mapped to a dummy 0). -/
def divisorNat : TimeUnit → ℕ
  | microfortnights => 0
  | weeks => 604800000
  | days => 86400000
  | hours => 3600000
  | minutes => 60000
  | seconds => 1000
  | milliseconds => 1

/-- The `TimePoint` class: its only state is the owned epoch-offset period. -/
structure TimePoint where
  unixEpoch : TimePeriod
deriving DecidableEq, Repr

/-- A host `Date` object, reduced to its `getTime()` millisecond value. -/
structure JSDate where
  getTime : ℚ
deriving DecidableEq, Repr

/-- Millisecond value of a `TimePoint | Date` argument, as read by
`time instanceof Date ? time.getTime() : time.unixEpoch.asMilliseconds`. -/
def msOf : TimePoint ⊕ JSDate → ℚ
  | .inl t => t.unixEpoch.asMilliseconds
  | .inr d => d.getTime

/-- Models `TimePoint.difference` (src/index.ts):
`new TimePeriod(timeMs - this.unixEpoch.asMilliseconds)`. -/
def TimePoint.difference (this : TimePoint) (time : TimePoint ⊕ JSDate) : TimePeriod :=
  ⟨msOf time - this.unixEpoch.asMilliseconds⟩

/-- One invocation of `atTime` arms exactly one host timer: either directly
for the callback (`setTimeout(func, delayMs)`) or for a re-anchoring round
(`setTimeout(() => atTime(time, func), delayMs)`). -/
inductive SchedAction where
  | fireDirect (delayMs : ℚ)
  | reanchor (delayMs : ℚ)
deriving DecidableEq, Repr

/-- Models one invocation of `atTime` (src/index.ts) at clock value `nowMs`
with target `targetMs`: `diff = TimePoint.now().difference(time)`; if
`diff.asSeconds < 30` then `setTimeout(func, diff.asMilliseconds)`, else
`setTimeout(() => atTime(time, func), 30000)`. -/
def atTimeStep (nowMs targetMs : ℚ) : SchedAction :=
  let diff := targetMs - nowMs
  if diff / 1000 < 30 then .fireDirect diff else .reanchor 30000

/-- The `atTime` re-anchoring chain under an ideal host timer (a timer armed
for `d` ms fires exactly `d` ms later): returns the number of re-anchoring
rounds and the clock value at which the callback timer is finally armed to
fire, or `none` if `fuel` invocations do not reach the direct branch. -/
def atTimeFire : ℕ → ℚ → ℚ → Option (ℕ × ℚ)
  | 0, _, _ => none
  | fuel + 1, nowMs, targetMs =>
    match atTimeStep nowMs targetMs with
    | .fireDirect d => some (0, nowMs + d)
    | .reanchor d => (atTimeFire fuel (nowMs + d) targetMs).map (fun p => (p.1 + 1, p.2))

/-- Models the JavaScript remainder `v % 1`: `v` minus its truncation toward
zero, so it is negative (never `> 0`) for negative non-integral `v`. -/
def jsModOne (v : ℚ) : ℚ := v - (if 0 ≤ v then (⌊v⌋ : ℚ) else (⌈v⌉ : ℚ))

/-- Gregorian leap-year rule (what ECMAScript `Date` implements for its
proleptic Gregorian calendar). -/
def isGregLeapYear (y : ℤ) : Bool := y % 4 = 0 ∧ (y % 100 ≠ 0 ∨ y % 400 = 0)

/-- ECMAScript two-digit-year resolution in the `Date(year, month, day)`
constructor: integral years 0 through 99 denote 1900 through 1999; other
years are taken literally. -/
def resolveDateYear (y : ℤ) : ℤ := if 0 ≤ y ∧ y ≤ 99 then 1900 + y else y

/-- Days in a calendar month of the proleptic Gregorian calendar
(month 1 through 12; other values are unreachable behind the month check). -/
def daysInMonth (y m : ℤ) : ℤ :=
  if m = 2 then (if isGregLeapYear y then 29 else 28)
  else if m = 4 ∨ m = 6 ∨ m = 9 ∨ m = 11 then 30
  else 31

/-- Models `new Date(year, month, 0).getDate()` (src/index.ts, `TimePoint`
constructor): the number of days in calendar month `month` of the resolved
year.  `none` models the `NaN` the host returns for non-integral arguments.
Faithful for years within the host `Date` range (about ±275000); the
theorems that use it restrict the year accordingly. -/
def getDateMaxDay (year month : ℚ) : Option ℤ :=
  if year.den = 1 ∧ month.den = 1 then
    some (daysInMonth (resolveDateYear year.num) month.num)
  else none

/-- The validation errors the `TimePoint` constructor can throw for a
calendar descriptor, in source order. -/
inductive DescriptorError where
  | invalidDescriptor
  | invalidMonth
  | invalidDay
  | invalidHour
  | invalidMinute
  | invalidSecond
deriving DecidableEq, Repr

/-- Models the calendar-descriptor validation sequence of the `TimePoint`
constructor (src/index.ts): the `[year, month, day, hour, minute].some(v => v % 1 > 0)`
integrality check, then the month, day (`day > maxDay` is false when
`maxDay` is `NaN`), hour, minute and second range checks; `none` means no
error is thrown and construction proceeds to host string parsing.  The
timezone string plays no part in validation and is omitted. -/
def checkDescriptor (year month day hour minute second : ℚ) : Option DescriptorError :=
  if [year, month, day, hour, minute].any (fun v => 0 < jsModOne v) then
    some .invalidDescriptor
  else if month < 1 ∨ 12 < month then some .invalidMonth
  else if day < 1 ∨ Option.any (fun m : ℤ => decide ((m : ℚ) < day)) (getDateMaxDay year month)
      = true then
    some .invalidDay
  else if hour < 0 ∨ 24 ≤ hour then some .invalidHour
  else if minute < 0 ∨ 60 ≤ minute then some .invalidMinute
  else if second < 0 ∨ 60 ≤ second then some .invalidSecond
  else none

/-- A JavaScript IEEE-754 double restricted to the values the claims need:
`NaN`, the two infinities, and finite values as exact rationals (negative
zero is not distinguished). -/
inductive JSNum where
  | nan
  | inf
  | neginf
  | fin (q : ℚ)
deriving DecidableEq, Repr

/-- IEEE-754 `==` on `JSNum`: `NaN` compares unequal to everything,
including itself. -/
def jsEq : JSNum → JSNum → Bool
  | .nan, _ => false
  | _, .nan => false
  | .inf, .inf => true
  | .neginf, .neginf => true
  | .fin a, .fin b => a = b
  | _, _ => false

/-- IEEE-754 addition on `JSNum`. -/
def jsAdd : JSNum → JSNum → JSNum
  | .nan, _ => .nan
  | _, .nan => .nan
  | .inf, .neginf => .nan
  | .neginf, .inf => .nan
  | .inf, _ => .inf
  | _, .inf => .inf
  | .neginf, _ => .neginf
  | _, .neginf => .neginf
  | .fin a, .fin b => .fin (a + b)

/-- IEEE-754 multiplication on `JSNum` (zero times an infinity is `NaN`). -/
def jsMul : JSNum → JSNum → JSNum
  | .nan, _ => .nan
  | _, .nan => .nan
  | .inf, .inf => .inf
  | .inf, .neginf => .neginf
  | .neginf, .inf => .neginf
  | .neginf, .neginf => .inf
  | .inf, .fin b => if b = 0 then .nan else if 0 < b then .inf else .neginf
  | .fin a, .inf => if a = 0 then .nan else if 0 < a then .inf else .neginf
  | .neginf, .fin b => if b = 0 then .nan else if 0 < b then .neginf else .inf
  | .fin a, .neginf => if a = 0 then .nan else if 0 < a then .neginf else .inf
  | .fin a, .fin b => .fin (a * b)

/-- IEEE-754 division on `JSNum`: `0 / 0` is `NaN`, a nonzero finite value
divided by zero is a signed infinity (negative zero not modelled). -/
def jsDiv : JSNum → JSNum → JSNum
  | .nan, _ => .nan
  | _, .nan => .nan
  | .inf, .inf => .nan
  | .inf, .neginf => .nan
  | .neginf, .inf => .nan
  | .neginf, .neginf => .nan
  | .inf, .fin b => if 0 ≤ b then .inf else .neginf
  | .neginf, .fin b => if 0 ≤ b then .neginf else .inf
  | .fin _, .inf => .fin 0
  | .fin _, .neginf => .fin 0
  | .fin a, .fin b =>
      if b = 0 then (if a = 0 then .nan else if 0 < a then .inf else .neginf)
      else .fin (a / b)

/-- Models `TimePeriod.equals` (src/index.ts) on the IEEE model:
`period.asMilliseconds == this.asMilliseconds`. -/
def jsEquals (this other : JSNum) : Bool := jsEq other this

/-- Models `TimePeriod.divide` (src/index.ts) on the IEEE model: the quotient
is routed through the breakdown-form constructor,
`new TimePeriod({milliseconds: this.asMilliseconds / by})`, whose reduce
computes `0 + divisors.milliseconds * amount`. -/
def jsDivide (ms d : JSNum) : JSNum := jsAdd (.fin 0) (jsMul (.fin 1) (jsDiv ms d))

end Chrono

namespace Chrono

open TimeUnit

theorem divisors_injective (a b : TimeUnit) (h : divisors a = divisors b) : a = b := by
  cases a <;> cases b <;> first
    | rfl
    | exact absurd h (by norm_num [divisors])

theorem sortUnits_perm (l : List TimeUnit) : (sortUnits l).Perm l :=
  List.perm_insertionSort unitLE l

theorem sortUnits_sorted (l : List TimeUnit) : List.Sorted unitLE (sortUnits l) :=
  List.sorted_insertionSort unitLE l

theorem sortUnits_eq_of_perm {l l' : List TimeUnit} (h : l.Perm l') : sortUnits l = sortUnits l' :=
  List.eq_of_perm_of_sorted ((sortUnits_perm l).trans (h.trans (sortUnits_perm l').symm))
    (sortUnits_sorted l) (sortUnits_sorted l')

/-- C7: with no unit list, `breakdown` uses units
`[days, hours, minutes, seconds, milliseconds]` and defaults
`floatLast = true, includeZero = false`; with an explicit unit list it uses
defaults `floatLast = false, includeZero = true`; explicitly passed options
override these defaults in both call shapes. -/
theorem breakdown_option_defaults (p : TimePeriod) (units : List TimeUnit) (f z : Bool)
    (o : BreakdownOptions) :
    p.breakdown (.inr ⟨none, none⟩) o = breakdownList p.asMilliseconds defaultUnits true false
    ∧ p.breakdown (.inl units) ⟨none, none⟩ = breakdownList p.asMilliseconds units false true
    ∧ p.breakdown (.inr ⟨some f, some z⟩) o = breakdownList p.asMilliseconds defaultUnits f z
    ∧ p.breakdown (.inl units) ⟨some f, some z⟩ = breakdownList p.asMilliseconds units f z
    ∧ p.breakdown (.inr ⟨some f, none⟩) o = breakdownList p.asMilliseconds defaultUnits f false
    ∧ p.breakdown (.inr ⟨none, some z⟩) o = breakdownList p.asMilliseconds defaultUnits true z
    ∧ p.breakdown (.inl units) ⟨some f, none⟩ = breakdownList p.asMilliseconds units f true
    ∧ p.breakdown (.inl units) ⟨none, some z⟩ = breakdownList p.asMilliseconds units false z :=
  ⟨rfl, rfl, rfl, rfl, rfl, rfl, rfl, rfl⟩

/-- C8: `a.difference(b)` returns a period whose millisecond value is `b`'s
epoch milliseconds minus `a`'s, and it is positive exactly when `b` is
later than `a`. -/
theorem difference_spec (a : TimePoint) (b : TimePoint ⊕ JSDate) :
    (a.difference b).asMilliseconds = msOf b - a.unixEpoch.asMilliseconds
    ∧ (0 < (a.difference b).asMilliseconds ↔ a.unixEpoch.asMilliseconds < msOf b) :=
  ⟨rfl, sub_pos⟩

/-- C4: an `atTime` invocation arms the timer for `diff.asMilliseconds` to
fire the callback directly when `diff` is under 30 seconds, and otherwise
arms it for exactly 30000 ms to re-invoke itself against the original
target; under an ideal host timer a target 65 seconds away re-anchors
exactly twice and the callback timer is armed to fire at exactly the
65-second mark, not at a 30-second quantisation. -/
theorem atTime_step_spec (now target : ℚ) :
    (target - now < 30000 → atTimeStep now target = .fireDirect (target - now))
    ∧ (30000 ≤ target - now → atTimeStep now target = .reanchor 30000)
    ∧ atTimeFire 3 0 65000 = some (2, 65000) := by
  refine ⟨fun h => ?_, fun h => ?_, by norm_num [atTimeFire, atTimeStep]⟩
  · unfold atTimeStep
    rw [if_pos]
    rw [div_lt_iff₀ (by norm_num)]
    linarith
  · unfold atTimeStep
    rw [if_neg]
    rw [not_lt, le_div_iff₀ (by norm_num)]
    linarith

theorem atTime_step_spec_witness :
    ((29000 : ℚ) - 0 < 30000) ∧ atTimeStep 0 29000 = .fireDirect (29000 - 0) :=
  ⟨by norm_num, (atTime_step_spec 0 29000).1 (by norm_num)⟩

/-- C10: `atTime` is total and arms exactly one host timer per invocation
(every invocation produces exactly one `SchedAction`); when the target is
at or before the current instant the direct branch is taken, scheduling the
callback in a single host-timer call with a non-positive delay. -/
theorem atTime_past_target (now target : ℚ) (h : target ≤ now) :
    atTimeStep now target = .fireDirect (target - now) ∧ target - now ≤ 0 := by
  have hd : target - now ≤ 0 := sub_nonpos.mpr h
  refine ⟨?_, hd⟩
  unfold atTimeStep
  rw [if_pos]
  exact lt_of_le_of_lt (div_nonpos_of_nonpos_of_nonneg hd (by norm_num)) (by norm_num)

theorem atTime_past_target_witness :
    ((0 : ℚ) ≤ 5) ∧ (atTimeStep 5 0 = .fireDirect (0 - 5) ∧ (0 : ℚ) - 5 ≤ 0) :=
  ⟨by norm_num, atTime_past_target 5 0 (by norm_num)⟩

/-- C9: `TimePeriod.equals` compares the millisecond scalars with IEEE-754
equality, so it is reflexive exactly on non-NaN scalars; a NaN scalar is
reachable (for example `TimePeriod.milliseconds(0).divide(0)`) and such a
period is not equal to itself. -/
theorem equals_reflexive_iff_not_nan (x : JSNum) :
    (x ≠ .nan → jsEquals x x = true)
    ∧ jsEquals .nan .nan = false
    ∧ jsDivide (.fin 0) (.fin 0) = .nan
    ∧ jsEquals (jsDivide (.fin 0) (.fin 0)) (jsDivide (.fin 0) (.fin 0)) = false := by
  refine ⟨fun h => ?_, rfl, ?_, ?_⟩
  · cases x with
    | nan => exact absurd rfl h
    | inf => rfl
    | neginf => rfl
    | fin q => simp [jsEquals, jsEq]
  · simp [jsDivide, jsDiv, jsMul, jsAdd]
  · simp [jsDivide, jsDiv, jsMul, jsAdd, jsEquals, jsEq]

theorem equals_reflexive_iff_not_nan_witness :
    (JSNum.fin 0 ≠ JSNum.nan) ∧ jsEquals (.fin 0) (.fin 0) = true :=
  ⟨by decide, (equals_reflexive_iff_not_nan (.fin 0)).1 (by decide)⟩

/-- C1: `breakdown` sorts the requested units by descending divisor before
decomposing, so permuting the unit-list argument does not change the result
(entries and key order included), and the decomposition always proceeds in
descending-divisor significance order. -/
theorem breakdown_perm_invariant (p : TimePeriod) (l l' : List TimeUnit) (f z : Bool)
    (h : l.Perm l') :
    p.breakdown (.inl l') ⟨some f, some z⟩ = p.breakdown (.inl l) ⟨some f, some z⟩
    ∧ List.Sorted unitLE (sortUnits l) := by
  refine ⟨?_, sortUnits_sorted l⟩
  show breakdownList p.asMilliseconds l' f z = breakdownList p.asMilliseconds l f z
  unfold breakdownList
  rw [sortUnits_eq_of_perm h]

theorem breakdown_perm_invariant_witness :
    ([seconds, minutes].Perm [minutes, seconds])
    ∧ ((TimePeriod.mk 90500).breakdown (.inl [minutes, seconds]) ⟨some false, some true⟩ =
        (TimePeriod.mk 90500).breakdown (.inl [seconds, minutes]) ⟨some false, some true⟩
      ∧ List.Sorted unitLE (sortUnits [seconds, minutes])) :=
  ⟨by decide, breakdown_perm_invariant (TimePeriod.mk 90500) [seconds, minutes]
    [minutes, seconds] false true (by decide)⟩

theorem lastElem?_mem : ∀ {l : List TimeUnit} {v : TimeUnit}, lastElem? l = some v → v ∈ l := by
  intro l
  induction l with
  | nil => intro v h; simp [lastElem?] at h
  | cons u t ih =>
    intro v h
    cases t with
    | nil =>
      simp [lastElem?] at h
      simp [h]
    | cons u' t' =>
      have h' : lastElem? (u' :: t') = some v := h
      exact List.mem_cons_of_mem u (ih h')

theorem insertEntry_append {acc : List (TimeUnit × ℚ)} {u : TimeUnit} (a : ℚ)
    (h : ∀ p ∈ acc, p.1 ≠ u) : insertEntry acc u a = acc ++ [(u, a)] := by
  have hany : ¬ ((acc.any fun p => decide (p.1 = u)) = true) := by
    simp only [List.any_eq_true, decide_eq_true_eq]
    rintro ⟨p, hp, hpu⟩
    exact h p hp hpu
  unfold insertEntry
  rw [if_neg hany]

theorem insertEntry_nil (u : TimeUnit) (a : ℚ) : insertEntry [] u a = [(u, a)] := by
  rw [insertEntry_append a (by intro p hp; cases hp)]
  rfl

theorem breakdownGo_acc (fu : Option TimeUnit) (iz : Bool) :
    ∀ (l : List TimeUnit) (r : ℚ) (acc : List (TimeUnit × ℚ)), l.Nodup →
      (∀ u ∈ l, ∀ p ∈ acc, p.1 ≠ u) →
      breakdownGo fu iz l r acc = acc ++ breakdownGo fu iz l r [] := by
  intro l
  induction l with
  | nil => intro r acc _ _; simp [breakdownGo]
  | cons u t ih =>
    intro r acc hnd hfresh
    have hut : u ∉ t := (List.nodup_cons.mp hnd).1
    have hndt : t.Nodup := (List.nodup_cons.mp hnd).2
    have hfrt : ∀ v ∈ t, ∀ p ∈ acc, p.1 ≠ v :=
      fun v hv => hfresh v (List.mem_cons_of_mem u hv)
    have hfr_head : ∀ p ∈ acc, p.1 ≠ u := hfresh u (List.mem_cons_self u t)
    have hstep : ∀ a : ℚ, ∀ v ∈ t, ∀ p ∈ acc ++ [(u, a)], p.1 ≠ v := by
      intro a v hv p hp
      rcases List.mem_append.mp hp with hpa | hpu
      · exact hfrt v hv p hpa
      · have hp1 : p = (u, a) := by simpa using hpu
        subst hp1
        exact fun he => hut ((show u = v from he) ▸ hv)
    have hstep0 : ∀ a : ℚ, ∀ v ∈ t, ∀ p ∈ [(u, a)], p.1 ≠ v := by
      intro a v hv p hp
      have hp1 : p = (u, a) := by simpa using hp
      subst hp1
      exact fun he => hut ((show u = v from he) ▸ hv)
    by_cases hfu : some u = fu
    · simp only [breakdownGo, if_pos hfu]
      by_cases hc : iz = true ∨ r / divisors u ≠ 0
      · rw [if_pos hc, if_pos hc, insertEntry_append _ hfr_head, insertEntry_nil,
          ih r (acc ++ [(u, r / divisors u)]) hndt (hstep _),
          ih r [(u, r / divisors u)] hndt (hstep0 _), List.append_assoc]
      · rw [if_neg hc, if_neg hc, ih r acc hndt hfrt]
    · simp only [breakdownGo, if_neg hfu]
      by_cases hc : iz = true ∨ ((⌊r / divisors u⌋ : ℤ) : ℚ) ≠ 0
      · rw [if_pos hc, if_pos hc, insertEntry_append _ hfr_head, insertEntry_nil,
          ih _ (acc ++ [(u, _)]) hndt (hstep _),
          ih _ [(u, _)] hndt (hstep0 _), List.append_assoc]
      · rw [if_neg hc, if_neg hc, ih _ acc hndt hfrt]

theorem breakdownGo_nil (fu : Option TimeUnit) (iz : Bool) (r : ℚ)
    (acc : List (TimeUnit × ℚ)) : breakdownGo fu iz [] r acc = acc := rfl

theorem breakdownGo_cons (fu : Option TimeUnit) (iz : Bool) (u : TimeUnit)
    (t : List TimeUnit) (r : ℚ) (acc : List (TimeUnit × ℚ)) :
    breakdownGo fu iz (u :: t) r acc =
      if some u = fu then
        breakdownGo fu iz t r
          (if iz = true ∨ r / divisors u ≠ 0 then insertEntry acc u (r / divisors u) else acc)
      else
        breakdownGo fu iz t (r - ((⌊r / divisors u⌋ : ℤ) : ℚ) * divisors u)
          (if iz = true ∨ ((⌊r / divisors u⌋ : ℤ) : ℚ) ≠ 0 then
            insertEntry acc u ((⌊r / divisors u⌋ : ℤ) : ℚ)
          else acc) := rfl

theorem breakdownSpecGo_single (fl iz : Bool) (r : ℚ) (u : TimeUnit) :
    breakdownSpecGo fl iz r [u] =
      if iz = true ∨ (if fl = true then r / divisors u else ((⌊r / divisors u⌋ : ℤ) : ℚ)) ≠ 0
      then [(u, if fl = true then r / divisors u else ((⌊r / divisors u⌋ : ℤ) : ℚ))]
      else [] := rfl

theorem breakdownSpecGo_cons (fl iz : Bool) (r : ℚ) (u u' : TimeUnit) (rest : List TimeUnit) :
    breakdownSpecGo fl iz r (u :: u' :: rest) =
      (if iz = true ∨ ((⌊r / divisors u⌋ : ℤ) : ℚ) ≠ 0
       then [(u, ((⌊r / divisors u⌋ : ℤ) : ℚ))]
       else []) ++
        breakdownSpecGo fl iz (r - ((⌊r / divisors u⌋ : ℤ) : ℚ) * divisors u) (u' :: rest) := rfl

theorem breakdownGo_eq_spec (fl iz : Bool) :
    ∀ l : List TimeUnit, l.Nodup → ∀ r : ℚ,
      breakdownGo (if fl = true then lastElem? l else none) iz l r [] =
        breakdownSpecGo fl iz r l := by
  intro l
  induction l with
  | nil => intro _ r; cases fl <;> rfl
  | cons u t ih =>
    intro hnd r
    have hut : u ∉ t := (List.nodup_cons.mp hnd).1
    have hndt : t.Nodup := (List.nodup_cons.mp hnd).2
    cases t with
    | nil =>
      cases fl with
      | true =>
        rw [show (if (true : Bool) = true then lastElem? [u] else none) = some u from rfl,
          breakdownGo_cons, if_pos rfl, breakdownGo_nil, breakdownSpecGo_single,
          show (if (true : Bool) = true then r / divisors u else ((⌊r / divisors u⌋ : ℤ) : ℚ)) =
            r / divisors u from rfl]
        by_cases hc : iz = true ∨ r / divisors u ≠ 0
        · rw [if_pos hc, if_pos hc, insertEntry_nil]
        · rw [if_neg hc, if_neg hc]
      | false =>
        rw [show (if (false : Bool) = true then lastElem? [u] else none) =
            (none : Option TimeUnit) from rfl,
          breakdownGo_cons, if_neg (by simp), breakdownGo_nil, breakdownSpecGo_single,
          show (if (false : Bool) = true then r / divisors u else ((⌊r / divisors u⌋ : ℤ) : ℚ)) =
            ((⌊r / divisors u⌋ : ℤ) : ℚ) from rfl]
        by_cases hc : iz = true ∨ ((⌊r / divisors u⌋ : ℤ) : ℚ) ≠ 0
        · rw [if_pos hc, if_pos hc, insertEntry_nil]
        · rw [if_neg hc, if_neg hc]
    | cons u' t' =>
      have hlast : (if fl = true then lastElem? (u :: u' :: t') else none) =
          (if fl = true then lastElem? (u' :: t') else none) := by
        cases fl <;> rfl
      have hfu : ¬ (some u = (if fl = true then lastElem? (u' :: t') else none)) := by
        cases fl with
        | false => simp
        | true =>
          rw [if_pos rfl]
          intro he
          exact hut (lastElem?_mem he.symm)
      have hfr : ∀ v ∈ u' :: t', ∀ p ∈ [(u, ((⌊r / divisors u⌋ : ℤ) : ℚ))], p.1 ≠ v := by
        intro v hv p hp
        have hp1 : p = (u, ((⌊r / divisors u⌋ : ℤ) : ℚ)) := by simpa using hp
        subst hp1
        exact fun he => hut ((show u = v from he) ▸ hv)
      rw [hlast, breakdownGo_cons, if_neg hfu, breakdownSpecGo_cons]
      by_cases hc : iz = true ∨ ((⌊r / divisors u⌋ : ℤ) : ℚ) ≠ 0
      · rw [if_pos hc, if_pos hc, insertEntry_nil,
          breakdownGo_acc _ iz (u' :: t') _ [(u, ((⌊r / divisors u⌋ : ℤ) : ℚ))] hndt hfr,
          ih hndt _]
      · rw [if_neg hc, if_neg hc, ih hndt _]
        rw [List.nil_append]

/-- C3: on a duplicate-free unit list (the spec declares duplicates not
meaningful), `breakdown` computes exactly the algorithm the claim spells
out, over the units in significance order: floor-divide and subtract for
every unit before the last, a fractional (`floatLast`) or floored amount
for the last unit, and an entry exactly when `includeZero` is true or the
amount is nonzero. -/
theorem breakdown_algorithm_spec (p : TimePeriod) (units : List TimeUnit) (fl iz : Bool)
    (h : units.Nodup) :
    p.breakdown (.inl units) ⟨some fl, some iz⟩ =
      breakdownSpecGo fl iz p.asMilliseconds (sortUnits units) := by
  show breakdownList p.asMilliseconds units fl iz = _
  unfold breakdownList
  exact breakdownGo_eq_spec fl iz (sortUnits units)
    ((sortUnits_perm units).nodup_iff.mpr h) p.asMilliseconds

theorem breakdown_algorithm_spec_witness :
    List.Nodup [minutes, seconds]
    ∧ (TimePeriod.mk 90500).breakdown (.inl [minutes, seconds]) ⟨some false, some true⟩ =
        breakdownSpecGo false true 90500 (sortUnits [minutes, seconds]) :=
  ⟨by decide, breakdown_algorithm_spec (TimePeriod.mk 90500) [minutes, seconds] false true
    (by decide)⟩

theorem entrySum_append (l₁ l₂ : List (TimeUnit × ℚ)) :
    entrySum (l₁ ++ l₂) = entrySum l₁ + entrySum l₂ := by
  simp [entrySum]

theorem entrySum_breakdownGo :
    ∀ l : List TimeUnit, l.Nodup → ∀ r : ℚ,
      entrySum (breakdownGo none true l r []) = r - finalRem l r := by
  intro l
  induction l with
  | nil => intro _ r; simp [breakdownGo_nil, finalRem, entrySum]
  | cons u t ih =>
    intro hnd r
    have hut : u ∉ t := (List.nodup_cons.mp hnd).1
    have hndt : t.Nodup := (List.nodup_cons.mp hnd).2
    have hfr : ∀ v ∈ t, ∀ p ∈ [(u, ((⌊r / divisors u⌋ : ℤ) : ℚ))], p.1 ≠ v := by
      intro v hv p hp
      have hp1 : p = (u, ((⌊r / divisors u⌋ : ℤ) : ℚ)) := by simpa using hp
      subst hp1
      exact fun he => hut ((show u = v from he) ▸ hv)
    rw [breakdownGo_cons, if_neg (by simp), if_pos (Or.inl rfl), insertEntry_nil,
      breakdownGo_acc none true t _ [(u, ((⌊r / divisors u⌋ : ℤ) : ℚ))] hndt hfr,
      entrySum_append, ih hndt _]
    have hsingle : entrySum [(u, ((⌊r / divisors u⌋ : ℤ) : ℚ))] =
        ((⌊r / divisors u⌋ : ℤ) : ℚ) * divisors u := by
      simp [entrySum]
    rw [hsingle]
    have hrem : finalRem (u :: t) r =
        finalRem t (r - ((⌊r / divisors u⌋ : ℤ) : ℚ) * divisors u) := rfl
    rw [hrem]
    ring

theorem divisors_eq_divisorNat (u : TimeUnit) (h : u ≠ microfortnights) :
    divisors u = (divisorNat u : ℚ) := by
  cases u <;> first
    | exact absurd rfl h
    | norm_num [divisors, divisorNat]

theorem finalRem_zero_input : ∀ l : List TimeUnit, finalRem l 0 = 0 := by
  intro l
  induction l with
  | nil => rfl
  | cons u t ih =>
    have h0 : finalRem (u :: t) 0 = finalRem t (0 - ((⌊0 / divisors u⌋ : ℤ) : ℚ) * divisors u) :=
      rfl
    rw [h0]
    simp [ih]

theorem floor_natCast_div (n k : ℕ) :
    ((⌊(n : ℚ) / (k : ℚ)⌋ : ℤ) : ℚ) = ((n / k : ℕ) : ℚ) := by
  rw [← natCast_floor_eq_intCast_floor (by positivity), Nat.floor_div_eq_div]

theorem finalRem_int_zero :
    ∀ l : List TimeUnit, (∀ u ∈ l, u ≠ microfortnights) → milliseconds ∈ l →
      ∀ n : ℕ, finalRem l (n : ℚ) = 0 := by
  intro l
  induction l with
  | nil => intro _ hms; cases hms
  | cons u t ih =>
    intro hmf hms n
    have hu_mf : u ≠ microfortnights := hmf u (List.mem_cons_self u t)
    have hd : divisors u = (divisorNat u : ℚ) := divisors_eq_divisorNat u hu_mf
    have hstep : (n : ℚ) - ((⌊(n : ℚ) / divisors u⌋ : ℤ) : ℚ) * divisors u =
        ((n % divisorNat u : ℕ) : ℚ) := by
      rw [hd, floor_natCast_div]
      have hmd : ((n % divisorNat u : ℕ) : ℚ) + ((n / divisorNat u : ℕ) : ℚ) * (divisorNat u : ℚ)
          = (n : ℚ) := by
        exact_mod_cast congrArg (fun m : ℕ => (m : ℚ)) (Nat.mod_add_div' n (divisorNat u))
      linarith
    have hcons : finalRem (u :: t) (n : ℚ) =
        finalRem t ((n : ℚ) - ((⌊(n : ℚ) / divisors u⌋ : ℤ) : ℚ) * divisors u) := rfl
    rw [hcons, hstep]
    by_cases hu : u = milliseconds
    · subst hu
      have h1 : divisorNat milliseconds = 1 := rfl
      rw [h1, Nat.mod_one]
      simpa using finalRem_zero_input t
    · have hms_t : milliseconds ∈ t := by
        rcases List.mem_cons.mp hms with he | ht
        · exact absurd he.symm hu
        · exact ht
      exact ih (fun v hv => hmf v (List.mem_cons_of_mem u hv)) hms_t (n % divisorNat u)

/-- C6 (amended): for a non-negative period whose millisecond value is an
integer, and a duplicate-free unit list that contains `milliseconds` and
does not contain the non-integral-divisor unit `microfortnights`, summing
`amount * divisors[unit]` over the entries of the
`{includeZero: true, floatLast: false}` breakdown reconstructs
`asMilliseconds` exactly. -/
theorem breakdown_roundtrip (n : ℕ) (units : List TimeUnit) (h1 : units.Nodup)
    (h2 : milliseconds ∈ units) (h3 : microfortnights ∉ units) :
    entrySum ((TimePeriod.mk (n : ℚ)).breakdown (.inl units) ⟨some false, some true⟩) =
      (n : ℚ) := by
  show entrySum (breakdownList (n : ℚ) units false true) = (n : ℚ)
  rw [show breakdownList (n : ℚ) units false true =
      breakdownGo none true (sortUnits units) (n : ℚ) [] from rfl]
  rw [entrySum_breakdownGo (sortUnits units) ((sortUnits_perm units).nodup_iff.mpr h1)]
  rw [finalRem_int_zero (sortUnits units)
    (fun v hv he => h3 (he ▸ (sortUnits_perm units).mem_iff.mp hv))
    ((sortUnits_perm units).mem_iff.mpr h2) n]
  ring

theorem breakdown_roundtrip_witness :
    List.Nodup [hours, minutes, seconds, milliseconds]
    ∧ milliseconds ∈ [hours, minutes, seconds, milliseconds]
    ∧ microfortnights ∉ ([hours, minutes, seconds, milliseconds] : List TimeUnit)
    ∧ entrySum ((TimePeriod.mk ((3661001 : ℕ) : ℚ)).breakdown
        (.inl [hours, minutes, seconds, milliseconds]) ⟨some false, some true⟩) =
        ((3661001 : ℕ) : ℚ) :=
  ⟨by decide, by decide, by decide,
    breakdown_roundtrip 3661001 [hours, minutes, seconds, milliseconds]
      (by decide) (by decide) (by decide)⟩

/-- C6 counterexamples: the round-trip fails as literally claimed, for a
unit list without `milliseconds` (remainder dropped), for a non-integral
millisecond value (sub-millisecond part dropped), for a list containing
`microfortnights` (non-integral divisor leaves a fractional remainder), and
for a duplicated unit (the second pass overwrites the entry with 0). -/
theorem breakdown_roundtrip_counterexample :
    entrySum ((TimePeriod.mk 5400000).breakdown (.inl [hours]) ⟨some false, some true⟩)
        ≠ (TimePeriod.mk 5400000).asMilliseconds
    ∧ entrySum ((TimePeriod.mk 0.5).breakdown (.inl [milliseconds]) ⟨some false, some true⟩)
        ≠ (TimePeriod.mk 0.5).asMilliseconds
    ∧ entrySum ((TimePeriod.mk 2000).breakdown (.inl [microfortnights, milliseconds])
          ⟨some false, some true⟩) ≠ (TimePeriod.mk 2000).asMilliseconds
    ∧ entrySum ((TimePeriod.mk 5).breakdown (.inl [milliseconds, milliseconds])
          ⟨some false, some true⟩) ≠ (TimePeriod.mk 5).asMilliseconds := by
  refine ⟨?_, ?_, ?_, ?_⟩ <;>
    · show entrySum (breakdownList _ _ false true) ≠ _
      norm_num [breakdownList, breakdownGo, sortUnits, List.insertionSort, List.orderedInsert,
        insertEntry, lastElem?, divisors, unitLE, entrySum]
      simp <;> norm_num

theorem jsModOne_intCast (n : ℤ) : jsModOne ((n : ℤ) : ℚ) = 0 := by
  unfold jsModOne
  split_ifs <;> simp

theorem checkDescriptor_int_day (year month day : ℤ) (hm1 : 1 ≤ month) (hm2 : month ≤ 12) :
    checkDescriptor (year : ℚ) (month : ℚ) (day : ℚ) 0 0 0 =
      (if day < 1 ∨ daysInMonth (resolveDateYear year) month < day
       then some .invalidDay
       else none) := by
  have hint : ¬ (([(year : ℚ), (month : ℚ), (day : ℚ), 0, 0].any
      fun v => decide (0 < jsModOne v)) = true) := by
    have h0 : jsModOne (0 : ℚ) = 0 := by
      simpa using jsModOne_intCast 0
    simp [jsModOne_intCast, h0]
  have hmax : getDateMaxDay (year : ℚ) (month : ℚ) =
      some (daysInMonth (resolveDateYear year) month) := by
    simp [getDateMaxDay]
  have hmonth : ¬ ((month : ℚ) < 1 ∨ 12 < (month : ℚ)) := by
    rw [not_or]
    constructor
    · exact not_lt.mpr (by exact_mod_cast hm1)
    · exact not_lt.mpr (by exact_mod_cast hm2)
  have hdaycond : ((day : ℚ) < 1 ∨ Option.any (fun m : ℤ => decide ((m : ℚ) < (day : ℚ)))
        (getDateMaxDay (year : ℚ) (month : ℚ)) = true) ↔
      (day < 1 ∨ daysInMonth (resolveDateYear year) month < day) := by
    rw [hmax]
    simp only [Option.any, decide_eq_true_eq]
    exact or_congr (by exact_mod_cast Iff.rfl) (by exact_mod_cast Iff.rfl)
  unfold checkDescriptor
  rw [if_neg hint, if_neg hmonth]
  by_cases hday : day < 1 ∨ daysInMonth (resolveDateYear year) month < day
  · rw [if_pos (hdaycond.mpr hday), if_pos hday]
  · rw [if_neg (fun h => hday (hdaycond.mp h)), if_neg hday]
    norm_num

/-- C2 (corrected): the day range check uses the host date constructor,
which resolves integral years 0 through 99 to 1900 through 1999 and other
years literally; construction rejects a day exactly when it is outside 1
through the number of days in the resolved (year, month), so February 29 is
accepted exactly when the resolved year is a Gregorian leap year — in
particular 2020-02-29 is accepted and 2020-02-30 is rejected.  The year
bounds keep the statement inside the host date range, where the model of
`getDate` is faithful. -/
theorem day_validation_leap (year month day : ℤ) (_hy1 : -200000 ≤ year)
    (_hy2 : year ≤ 200000) (hm1 : 1 ≤ month) (hm2 : month ≤ 12) :
    (checkDescriptor (year : ℚ) (month : ℚ) (day : ℚ) 0 0 0 = some .invalidDay ↔
      (day < 1 ∨ daysInMonth (resolveDateYear year) month < day))
    ∧ (checkDescriptor (year : ℚ) 2 29 0 0 0 = none ↔
        isGregLeapYear (resolveDateYear year) = true)
    ∧ checkDescriptor 2020 2 30 0 0 0 = some .invalidDay := by
  refine ⟨?_, ?_, ?_⟩
  · rw [checkDescriptor_int_day year month day hm1 hm2]
    by_cases hday : day < 1 ∨ daysInMonth (resolveDateYear year) month < day
    · simp [hday]
    · simp [hday]
  · have h29 := checkDescriptor_int_day year 2 29 (by norm_num) (by norm_num)
    rw [show (((2 : ℤ)) : ℚ) = (2 : ℚ) from by norm_num,
      show (((29 : ℤ)) : ℚ) = (29 : ℚ) from by norm_num] at h29
    rw [h29]
    by_cases hl : isGregLeapYear (resolveDateYear year) = true
    · simp [daysInMonth, hl]
    · simp [daysInMonth, hl]
  · have h30 := checkDescriptor_int_day 2020 2 30 (by norm_num) (by norm_num)
    rw [show (((2020 : ℤ)) : ℚ) = (2020 : ℚ) from by norm_num,
      show (((2 : ℤ)) : ℚ) = (2 : ℚ) from by norm_num,
      show (((30 : ℤ)) : ℚ) = (30 : ℚ) from by norm_num] at h30
    rw [h30]
    norm_num [daysInMonth, resolveDateYear, isGregLeapYear]

theorem day_validation_leap_witness :
    ((-200000 : ℤ) ≤ 2020 ∧ (2020 : ℤ) ≤ 200000 ∧ (1 : ℤ) ≤ 2 ∧ (2 : ℤ) ≤ 12)
    ∧ ((checkDescriptor ((2020 : ℤ) : ℚ) ((2 : ℤ) : ℚ) ((29 : ℤ) : ℚ) 0 0 0 =
          some .invalidDay ↔
        ((29 : ℤ) < 1 ∨ daysInMonth (resolveDateYear 2020) 2 < 29))
      ∧ (checkDescriptor ((2020 : ℤ) : ℚ) 2 29 0 0 0 = none ↔
          isGregLeapYear (resolveDateYear 2020) = true)
      ∧ checkDescriptor 2020 2 30 0 0 0 = some .invalidDay) :=
  ⟨⟨by decide, by decide, by decide, by decide⟩,
    day_validation_leap 2020 2 29 (by decide) (by decide) (by decide) (by decide)⟩

/-- C2 counterexample: year 0 is a Gregorian leap year, yet the constructor
rejects {year: 0, month: 2, day: 29} with the day range error, because the
host date constructor resolves year 0 to 1900, which is not a leap year. -/
theorem day_validation_year_zero :
    isGregLeapYear 0 = true ∧ checkDescriptor 0 2 29 0 0 0 = some .invalidDay := by
  constructor
  · decide
  · have h := checkDescriptor_int_day 0 2 29 (by norm_num) (by norm_num)
    rw [show (((0 : ℤ)) : ℚ) = (0 : ℚ) from by norm_num,
      show (((2 : ℤ)) : ℚ) = (2 : ℚ) from by norm_num,
      show (((29 : ℤ)) : ℚ) = (29 : ℚ) from by norm_num] at h
    rw [h]
    norm_num [daysInMonth, resolveDateYear, isGregLeapYear]

/-- C5 (code bug): the integrality check `v % 1 > 0` never fires for a
negative non-integral field, because the JavaScript remainder keeps the
dividend's sign, so the descriptor {year: -0.5, month: 10, day: 31,
hour: 19, minute: 30, second: 0} throws no error at all — contradicting
both the spec and the code's own error message, which say non-integral
values are only allowed for the seconds field.  (The day check also passes
because `new Date(-0.5, 10, 0).getDate()` is `NaN` and `day > NaN` is
false.) -/
theorem negative_fractional_descriptor_not_rejected :
    checkDescriptor (-0.5 : ℚ) 10 31 19 30 0 = none := by
  have hmod : jsModOne (-0.5 : ℚ) = -0.5 := by
    unfold jsModOne
    rw [if_neg (by norm_num)]
    norm_num
  have h10 : jsModOne (10 : ℚ) = 0 := by simpa using jsModOne_intCast 10
  have h31 : jsModOne (31 : ℚ) = 0 := by simpa using jsModOne_intCast 31
  have h19 : jsModOne (19 : ℚ) = 0 := by simpa using jsModOne_intCast 19
  have h30 : jsModOne (30 : ℚ) = 0 := by simpa using jsModOne_intCast 30
  have hmax : getDateMaxDay (-0.5 : ℚ) 10 = none := by
    unfold getDateMaxDay
    rw [if_neg]
    norm_num
  unfold checkDescriptor
  rw [if_neg (by simp [hmod, h10, h31, h19, h30]; norm_num)]
  rw [if_neg (by norm_num)]
  rw [if_neg (by rw [hmax]; simp only [Option.any]; norm_num)]
  rw [if_neg (by norm_num), if_neg (by norm_num), if_neg (by norm_num)]

end Chrono
